import Mathlib

/-!
Verification development for the `prepdocslib` document-ingestion library
(`app/backend/prepdocslib`).  Python strings are embedded as `List Char`
(Python strings are sequences of code points, so list indexing, slicing and
length agree with the Python semantics).  Generators are embedded as lists of
the values they yield.  Loops whose termination is not structural are embedded
with an explicit fuel parameter returning `Option` (`none` = fuel exhausted);
bounded inner scans are embedded as genuinely terminating functions.
-/

namespace PrepDocs

/-- Embeds `prepdocslib.page.Page`: a page of a parsed document. -/
structure Page where
  page_num : Nat
  offset : Nat
  text : List Char
deriving DecidableEq, Repr

/-- Embeds `prepdocslib.page.SplitPage`: a chunk produced by a text splitter. -/
structure SplitPage where
  page_num : Nat
  text : List Char
deriving DecidableEq, Repr

/-! ## Character classes of `textsplitter.py`

`STANDARD_SENTENCE_ENDINGS ∪ CJK_SENTENCE_ENDINGS` and
`STANDARD_WORD_BREAKS ∪ CJK_WORD_BREAKS`, with the exact code points of the
source.  Note a Python quirk in the `CJK_WORD_BREAKS` literal: the source text
`""", """` is parsed by Python as a single triple-quoted string containing
`", "`, so the curly double quotation marks U+201C/U+201D are *not* elements
of the set, while the plain apostrophe U+0027 is (listed twice).  The
two-character element `", "` can never compare equal to a single character in
the membership tests `text[i] in word_breaks`, so it is omitted from this
single-character predicate. -/

/-- Code points of `STANDARD_SENTENCE_ENDINGS ∪ CJK_SENTENCE_ENDINGS`. -/
def sentenceEndingCodes : List Nat :=
  [0x2e, 0x21, 0x3f, 0x3002, 0xff01, 0xff1f, 0x203c, 0x2047, 0x2048, 0x2049]

/-- Code points of the single-character elements of
`STANDARD_WORD_BREAKS ∪ CJK_WORD_BREAKS`. -/
def wordBreakCodes : List Nat :=
  [0x2c, 0x3b, 0x3a, 0x20, 0x28, 0x29, 0x5b, 0x5d, 0x7b, 0x7d, 0x9, 0xa,
   0x3001, 0xff0c, 0xff1b, 0xff1a, 0xff08, 0xff09, 0x3010, 0x3011,
   0x300c, 0x300d, 0x300e, 0x300f, 0x3014, 0x3015, 0x3008, 0x3009,
   0x300a, 0x300b, 0x3016, 0x3017, 0x3018, 0x3019, 0x301a, 0x301b,
   0x301d, 0x301e, 0x301f, 0x3030, 0x2013, 0x2014, 0x27,
   0x201a, 0x201b, 0x201e, 0x201f, 0x2039, 0x203a]

/-- Is `c` a member of `self.sentence_endings`? -/
def isSentenceEnding (c : Char) : Bool :=
  sentenceEndingCodes.contains c.toNat

/-- Is `c` a member of `self.word_breaks`? -/
def isWordBreak (c : Char) : Bool :=
  wordBreakCodes.contains c.toNat

/-! ## `SentenceTextSplitter` configuration constants -/

/-- `DEFAULT_SECTION_LENGTH`, stored as `self.max_section_length`. -/
def MAX_SECTION_LENGTH : Nat := 1000

/-- `self.sentence_search_limit`. -/
def SENTENCE_SEARCH_LIMIT : Nat := 100

/-- `self.section_overlap = int(1000 * 10 / 100)`. -/
def SECTION_OVERLAP : Nat := 100

/-- Indexing `text[i]` on a Python string; all uses below are in range, the
default is irrelevant. -/
def charAt (text : List Char) (i : Nat) : Char :=
  text.getD i ' '

/-- Embeds the split-point search loop of
`SentenceTextSplitter.split_page_by_max_tokens` (lines 136-149): starting from
`pos = 0` and while `start - pos > boundary`, return the first position among
`start - pos`, `start + pos` holding a sentence ending, else `-1` (here:
`none`).  Any returned position satisfies `boundary < start - pos ≤ start` or
`start ≤ start + pos`, hence is `> 0`, so `none` coincides exactly with the
Python branch `split_position > 0` being false.  The loop increments `pos`,
so it runs at most `start` times; `fuel` is initialised to `start + 1`. -/
def findSplitPosition (text : List Char) (start boundary : Nat) :
    Nat → Nat → Option Nat
  | _, 0 => none
  | pos, fuel + 1 =>
    if boundary < start - pos then
      if isSentenceEnding (charAt text (start - pos)) then some (start - pos)
      else if isSentenceEnding (charAt text (start + pos)) then some (start + pos)
      else findSplitPosition text start boundary (pos + 1) fuel
    else none

/-- Embeds the half-computation of `split_page_by_max_tokens` (lines
136-159): search for a sentence ending near the centre; if one is found at
`split_position > 0` split after it, else fall back to overlapping halves
around the midpoint.  `int(len(text) * (DEFAULT_OVERLAP_PERCENT / 100))` is
embedded as `n * 10 / 100`, which agrees with the binary64 computation
`int(n * 0.1)` for every realistic length (the product `n * 0.1` of the
nearest-double of 0.1 rounds below the next integer for all `n` that fit in
a document). -/
def splitHalves (text : List Char) : List Char × List Char :=
  let n := text.length
  match findSplitPosition text (n / 2) (n / 3) 0 (n / 2 + 1) with
  | some p => (text.take (p + 1), text.drop (p + 1))
  | none =>
    let middle := n / 2
    let overlap := n * 10 / 100
    (text.take (middle + overlap), text.drop (middle - overlap))

/-- Embeds `SentenceTextSplitter.split_page_by_max_tokens`: yield the text as
one chunk when its token count is within the budget, else recurse on the two
halves of `splitHalves`, concatenating the yields.  The tokenizer (`tiktoken`
for `text-embedding-ada-002`) is embedded as an abstract token counting
function `tok`; `maxTok` is `self.max_tokens_per_section`.  The recursion of
the source is embedded with a fuel parameter; `none` means the fuel was
exhausted. -/
def split_page_by_max_tokens (tok : List Char → Nat) (maxTok : Nat) :
    Nat → Nat → List Char → Option (List SplitPage)
  | 0, _, _ => none
  | fuel + 1, pageNum, text =>
    if tok text ≤ maxTok then some [⟨pageNum, text⟩]
    else
      match split_page_by_max_tokens tok maxTok fuel pageNum (splitHalves text).1 with
      | none => none
      | some a =>
        match split_page_by_max_tokens tok maxTok fuel pageNum (splitHalves text).2 with
        | none => none
        | some b => some (a ++ b)

/-! ## `SentenceTextSplitter.split_pages` -/

/-- Embeds the local helper `find_page` of `split_pages` (lines 174-180): scan
`i` over `0 .. num_pages - 2`; if `pages[i].offset ≤ offset < pages[i+1].offset`
return `pages[i].page_num`, else fall through to the last page's number.  On an
empty list the Python code would raise `IndexError`; `split_pages` never calls
it then (the blank-text guard returns first), so the `[]` case returns 0. -/
def find_page : List Page → Nat → Nat
  | [], _ => 0
  | [p], _ => p.page_num
  | p :: q :: ps, offset =>
    if p.offset ≤ offset ∧ offset < q.offset then p.page_num
    else find_page (q :: ps) offset

/-- Concatenation `all_text = "".join(page.text for page in pages)`. -/
def concatText (pages : List Page) : List Char :=
  (pages.map Page.text).flatten

/-- Whitespace in the sense of Python `str.strip()` (ASCII part; the Unicode
space code points also stripped by Python never occur in the developments
below). -/
def isPySpace (c : Char) : Bool :=
  c.toNat ∈ [0x20, 0x9, 0xa, 0xd, 0xb, 0xc]

/-- Embeds the guard `not all_text.strip()`. -/
def isBlankText (text : List Char) : Bool :=
  text.all isPySpace

/-- Is `pat` a prefix of `l`? (helper for the embedding of `str.rfind`). -/
def startsWithList : List Char → List Char → Bool
  | [], _ => true
  | _ :: _, [] => false
  | a :: as, b :: bs => a == b && startsWithList as bs

/-- Embeds Python `text.rfind(pat)`: the greatest index at which `pat` occurs
in `text`, or `-1` when it does not occur. -/
def rfind (text pat : List Char) : Int :=
  match ((List.range text.length).filter fun i => startsWithList pat (text.drop i)).getLast? with
  | some i => (i : Int)
  | none => -1

/-- The pattern `"<table"`. -/
def tableOpenPat : List Char := ['<', 't', 'a', 'b', 'l', 'e']

/-- The pattern `"</table"`. -/
def tableClosePat : List Char := ['<', '/', 't', 'a', 'b', 'l', 'e']

/-- Embeds the forward sentence-boundary scan of `split_pages` (lines
204-210): while `end < length` and `end - start - max_section_length <
sentence_search_limit` and `all_text[end]` is no sentence ending, record the
last word break seen in `last_word` and increment `end`.  `last_word` is an
`Int` initialised to `-1` exactly as in the source.  The middle conjunct (with
Python integers) is `end < start + 1100`, which truncated `Nat` subtraction
renders faithfully; it bounds the recursion. -/
def forwardScan (text : List Char) (n start : Nat) (endPos : Nat) (lastWord : Int) :
    Nat × Int :=
  if h : endPos < n ∧ endPos - start - MAX_SECTION_LENGTH < SENTENCE_SEARCH_LIMIT ∧
      ¬ isSentenceEnding (charAt text endPos) then
    forwardScan text n start (endPos + 1)
      (if isWordBreak (charAt text endPos) then (endPos : Int) else lastWord)
  else (endPos, lastWord)
termination_by start + MAX_SECTION_LENGTH + SENTENCE_SEARCH_LIMIT - endPos
decreasing_by
  simp only [MAX_SECTION_LENGTH, SENTENCE_SEARCH_LIMIT] at *
  omega

/-- Embeds the backward scan for the start of the next section (lines
219-226): while `start > 0` and `start > end - max_section_length -
2 * sentence_search_limit` and `all_text[start]` is no sentence ending, record
the last word break in `last_word` and decrement `start`.  With the conjunct
`start > 0`, truncated `Nat` subtraction in the middle conjunct again agrees
with Python integer arithmetic. -/
def backwardScan (text : List Char) (endPos : Nat) (startPos : Nat) (lastWord : Int) :
    Nat × Int :=
  if h : 0 < startPos ∧ endPos - MAX_SECTION_LENGTH - 2 * SENTENCE_SEARCH_LIMIT < startPos ∧
      ¬ isSentenceEnding (charAt text startPos) then
    backwardScan text endPos (startPos - 1)
      (if isWordBreak (charAt text startPos) then (startPos : Int) else lastWord)
  else (startPos, lastWord)
termination_by startPos

/-- Embeds one iteration of the `while start + self.section_overlap < length`
loop of `split_pages` (lines 199-253), returning the emitted window
`[start', end')` of `all_text` together with the start position for the next
iteration.  Steps, in source order: initial `end = min(start +
max_section_length, length)`; forward scan; fall back to the last word break
(`last_word > 0`); `end += 1` if `end < length`; backward scan from `start`;
fall back to its last word break; `start += 1` if `start > 0`; compute
`section_text = all_text[start:end]`; advance `start` to
`min(end - section_overlap, start + last_table_start)` when `section_text`
ends with an unclosed `<table`, else to `end - section_overlap`. -/
def splitIteration (text : List Char) (n start : Nat) : (Nat × Nat) × Nat :=
  let end0 := min (start + MAX_SECTION_LENGTH) n
  let fs := forwardScan text n start end0 (-1)
  let end1 := fs.1
  let end2 :=
    if end1 < n ∧ ¬ isSentenceEnding (charAt text end1) ∧ 0 < fs.2 then
      fs.2.toNat
    else end1
  let end3 := if end2 < n then end2 + 1 else end2
  let bs := backwardScan text end3 start (-1)
  let s1 := bs.1
  let s2 :=
    if ¬ isSentenceEnding (charAt text s1) ∧ 0 < bs.2 then bs.2.toNat else s1
  let s3 := if 0 < s2 then s2 + 1 else s2
  let sectionText := (text.drop s3).take (end3 - s3)
  let lastTableStart := rfind sectionText tableOpenPat
  let nextStart :=
    if (2 * SENTENCE_SEARCH_LIMIT : Int) < lastTableStart ∧
        rfind sectionText tableClosePat < lastTableStart then
      min (end3 - SECTION_OVERLAP) (s3 + lastTableStart.toNat)
    else end3 - SECTION_OVERLAP
  ((s3, end3), nextStart)

/-- Embeds the main loop of `split_pages` with fuel: returns the list of
emitted windows `[start, end)` together with the final values of the loop
variables `start` and `end` (the latter feeds the final-section check).
`endPrev` carries the value of the Python variable `end` from the previous
iteration. -/
def splitLoop (text : List Char) (n : Nat) :
    Nat → Nat → Nat → Option (List (Nat × Nat) × Nat × Nat)
  | 0, _, _ => none
  | fuel + 1, start, endPrev =>
    if start + SECTION_OVERLAP < n then
      let step := splitIteration text n start
      match splitLoop text n fuel step.2 step.1.2 with
      | none => none
      | some (ws, fStart, fEnd) => some (step.1 :: ws, fStart, fEnd)
    else some ([], start, endPrev)

/-- The windows of `all_text` whose slices `split_pages` feeds to
`split_page_by_max_tokens`, in yield order: the blank guard yields nothing;
text of length at most `max_section_length` is one window `[0, length)`;
otherwise the loop windows, followed by the final window `[start, end)` when
`start + section_overlap < end` at loop exit.  A window `(s, e)` stands for
the call `split_page_by_max_tokens(find_page(s), all_text[s:e])`. -/
def sectionWindows (text : List Char) (fuel : Nat) : Option (List (Nat × Nat)) :=
  let n := text.length
  if isBlankText text then some []
  else if n ≤ MAX_SECTION_LENGTH then some [(0, n)]
  else
    match splitLoop text n fuel 0 0 with
    | none => none
    | some (ws, fStart, fEnd) =>
      if fStart + SECTION_OVERLAP < fEnd then some (ws ++ [(fStart, fEnd)])
      else some ws

/-- Maps the windows to chunks: the concatenation, in order, of
`split_page_by_max_tokens(find_page(s), all_text[s:e])` over the windows
`(s, e)`.  Each inner call gets fuel `slice.length + 1`, which suffices
whenever the recursion of the source terminates (see `C5`). -/
def chunksOfWindows (tok : List Char → Nat) (maxTok : Nat) (pages : List Page)
    (allText : List Char) : List (Nat × Nat) → Option (List SplitPage)
  | [] => some []
  | (s, e) :: ws =>
    let slice := (allText.drop s).take (e - s)
    match split_page_by_max_tokens tok maxTok (slice.length + 1) (find_page pages s) slice with
    | none => none
    | some a =>
      match chunksOfWindows tok maxTok pages allText ws with
      | none => none
      | some b => some (a ++ b)

/-- Embeds `SentenceTextSplitter.split_pages` (as a list of the yielded
chunks): concatenate the page texts, compute the emitted windows, and split
each window's slice by token budget. -/
def split_pages (tok : List Char → Nat) (maxTok : Nat) (fuel : Nat)
    (pages : List Page) : Option (List SplitPage) :=
  let allText := concatText pages
  match sectionWindows allText fuel with
  | none => none
  | some ws => chunksOfWindows tok maxTok pages allText ws

/-! ## `searchmanager.SearchManager.update_content` — document ids -/

/-- `MAX_BATCH_SIZE` of `update_content`. -/
def MAX_BATCH_SIZE : Nat := 1000

/-- Embeds the batching
`[sections[i : i + MAX_BATCH_SIZE] for i in range(0, len(sections), MAX_BATCH_SIZE)]`. -/
def sectionBatches {α : Type} (xs : List α) : List (List α) :=
  if xs.isEmpty then []
  else xs.take MAX_BATCH_SIZE :: sectionBatches (xs.drop MAX_BATCH_SIZE)
termination_by xs.length
decreasing_by
  simp only [MAX_BATCH_SIZE]
  cases xs with
  | nil => simp_all
  | cons a as => simp [List.length_drop]; omega

/-- Embeds Python decimal rendering `str(i)` of a nonnegative integer, digit
list form: `natDecimal (n / 10) ++ [digit (n % 10)]` for `n ≥ 10`, a single
digit otherwise. -/
def natDecimal (n : Nat) : List Char :=
  if h : n < 10 then [Char.ofNat (48 + n)]
  else natDecimal (n / 10) ++ [Char.ofNat (48 + n % 10)]
termination_by n
decreasing_by omega

/-- The characters of the literal `"-page-"`. -/
def pageSep : List Char := ['-', 'p', 'a', 'g', 'e', '-']

/-- Embeds the id f-string of `update_content`,
`f"{section.content.filename_to_id()}-page-{section_index + batch_index * MAX_BATCH_SIZE}"`,
with the file id `filename_to_id()` abstract (it depends only on the `File`,
not on the section). -/
def documentId (fileId : List Char) (n : Nat) : List Char :=
  fileId ++ pageSep ++ natDecimal n

/-- The ids assigned by one `update_content` call, in upload order: for batch
`batch_index` and in-batch position `section_index`, the id
`documentId fileId (section_index + batch_index * MAX_BATCH_SIZE)`.  The
sections themselves only contribute their count and order. -/
def updateContentIds {α : Type} (fileId : List Char) (sections : List α) :
    List (List Char) :=
  (sectionBatches sections).enum.flatMap fun bi =>
    bi.2.enum.map fun si => documentId fileId (si.1 + bi.1 * MAX_BATCH_SIZE)

/-! ## `listfilestrategy.LocalListFileStrategy.check_md5` -/

/-- Embeds `LocalListFileStrategy.check_md5` as a state transformer on the
fingerprint store.  `isMd5Path` is `path.endswith(".md5")`; `storedHash` is
the content of `path + ".md5"` when that file exists (`none` = it does not);
`currentHash` is the md5 hexdigest of the file's current content (the hash
function itself is irrelevant to the control flow and left abstract).
Returns the boolean result together with the fingerprint stored afterwards
(`_write_hash` writes `currentHash` in both writing branches; the hexdigest
contains no whitespace, so the `strip()` on read is the identity). -/
def check_md5 (isMd5Path : Bool) (storedHash : Option (List Char))
    (currentHash : List Char) : Bool × Option (List Char) :=
  if isMd5Path then (true, storedHash)
  else
    match storedHash with
    | none => (false, some currentHash)
    | some stored =>
      if currentHash = stored then (true, some stored)
      else (false, some currentHash)

/-! ## `searchmanager.SearchManager.remove_content` -/

/-- A document returned by the search client: its id and the value of its
`oids` field (`none` = the key is absent, Python `document.get("oids")` is
`None`). -/
structure SearchDoc where
  id : List Char
  oids : Option (List (List Char))
deriving DecidableEq, Repr

/-- One result of `search_client.search`: the reported total count
(`result.get_count()`, which may exceed the number of returned documents,
capped at `top=1000`) and the returned documents. -/
structure QueryResult where
  count : Nat
  docs : List SearchDoc
deriving DecidableEq, Repr

/-- Embeds the filter
`if not only_oid or document.get("oids") == [only_oid]` of `remove_content`. -/
def removeQualifies (onlyOid : Option (List Char)) (d : SearchDoc) : Bool :=
  match onlyOid with
  | none => true
  | some oid => d.oids == some [oid]

/-- `max_results` of `remove_content`. -/
def MAX_RESULTS : Nat := 1000

/-- Embeds the `while True` loop of `remove_content` over an abstract search
client: `queries k` is the result the client returns to the `k`-th search
call.  Returns the list of batches passed to `delete_documents`, in call
order; `none` = fuel exhausted.  Loop body, in source order: search; break if
the count is 0; collect the documents passing the `only_oid` filter; if none
passed, break when the count is below `max_results` else continue; otherwise
delete the collected batch and loop. -/
def removeContentLoop (onlyOid : Option (List Char)) (queries : Nat → QueryResult) :
    Nat → Nat → Option (List (List SearchDoc))
  | _, 0 => none
  | k, fuel + 1 =>
    let result := queries k
    if result.count = 0 then some []
    else
      let toRemove := result.docs.filter (removeQualifies onlyOid)
      if toRemove.isEmpty then
        if result.count < MAX_RESULTS then some []
        else removeContentLoop onlyOid queries (k + 1) fuel
      else
        match removeContentLoop onlyOid queries (k + 1) fuel with
        | none => none
        | some rest => some (toRemove :: rest)

/-- Embeds `SearchManager.remove_content`: the delete batches issued, the
first search being query 0. -/
def remove_content (onlyOid : Option (List Char)) (queries : Nat → QueryResult)
    (fuel : Nat) : Option (List (List SearchDoc)) :=
  removeContentLoop onlyOid queries 0 fuel

/-! ## `filestrategy.FileStrategy.run` with `DocumentAction.Add`

The per-file pipeline is effectful (await points may raise); it is embedded
as a trace of events over an abstract outcome model of each file.  `parse_file`
either raises or returns a list of sections; `upload_blob` either raises or
returns `blob_sas_uris` (whose Python truthiness gates the image-embedding
step); `create_embeddings` and `update_content` either raise or succeed. -/

/-- Events of the `run` trace, tagged by a file identifier. -/
inductive Ev where
  | parseEv (fid : Nat)
  | uploadEv (fid : Nat)
  | embedEv (fid : Nat)
  | updateEv (fid : Nat)
  | closeEv (fid : Nat)
deriving DecidableEq, Repr

/-- Outcome model of one file in the `DocumentAction.Add` pipeline.  `none`
in a step means that step raises when reached; `parseOut = some sections`
carries the section count only (what `if sections:` tests);
`uploadOut = some b` records the truthiness `b` of the returned
`blob_sas_uris`. -/
structure FileModel where
  fid : Nat
  parseOut : Option Nat
  uploadOut : Option Bool
  embedOut : Option Unit
  updateOut : Option Unit
deriving DecidableEq, Repr

/-- Embeds the per-file `try ... finally` body of `run` for
`DocumentAction.Add`: the events of the `try` block in order, stopped at the
first raising step, with `closeEv` appended unconditionally by the `finally`
(`File.close` closes the stream; `if file:` and `if self.content:` are true
for every yielded file).  The boolean is `true` iff the body completed
without raising. -/
def processFile (hasImg : Bool) (f : FileModel) : List Ev × Bool :=
  let body : List Ev × Bool :=
    match f.parseOut with
    | none => ([Ev.parseEv f.fid], false)
    | some numSections =>
      if numSections = 0 then ([Ev.parseEv f.fid], true)
      else
        match f.uploadOut with
        | none => ([Ev.parseEv f.fid, Ev.uploadEv f.fid], false)
        | some truthy =>
          if hasImg && truthy then
            match f.embedOut with
            | none => ([Ev.parseEv f.fid, Ev.uploadEv f.fid, Ev.embedEv f.fid], false)
            | some _ =>
              match f.updateOut with
              | none =>
                ([Ev.parseEv f.fid, Ev.uploadEv f.fid, Ev.embedEv f.fid,
                  Ev.updateEv f.fid], false)
              | some _ =>
                ([Ev.parseEv f.fid, Ev.uploadEv f.fid, Ev.embedEv f.fid,
                  Ev.updateEv f.fid], true)
          else
            match f.updateOut with
            | none => ([Ev.parseEv f.fid, Ev.uploadEv f.fid, Ev.updateEv f.fid], false)
            | some _ => ([Ev.parseEv f.fid, Ev.uploadEv f.fid, Ev.updateEv f.fid], true)
  (body.1 ++ [Ev.closeEv f.fid], body.2)

/-- Embeds the `async for file in files` loop of `run` with
`DocumentAction.Add`: process each file in turn; an exception escaping a
file's `try/finally` (after its `finally` ran) propagates and aborts the
loop, so later files are not processed. -/
def runAdd (hasImg : Bool) : List FileModel → List Ev
  | [] => []
  | f :: fs =>
    let step := processFile hasImg f
    if step.2 then step.1 ++ runAdd hasImg fs else step.1

/-! ## `csvparser.CsvParser.parse` -/

/-- The input passed to `CsvParser.parse`: `bytes`/`bytearray` content (with
the string it UTF-8-decodes to), an object with a `read` method returning
such bytes, a plain `str` (accepted by the docstring, handled by neither
`isinstance` branch), or any other object without a `read` attribute. -/
inductive CsvContent where
  | bytesInput (data : List Char)
  | readerInput (data : List Char)
  | strInput (data : List Char)
  | otherInput
deriving DecidableEq, Repr

/-- Embeds Python `str.splitlines()` restricted to the line terminators
`\n`, `\r\n`, `\r` (the only ones occurring in the inputs considered): split
at each terminator, no trailing empty line. -/
def splitlinesList : List Char → List (List Char)
  | [] => []
  | '\r' :: '\n' :: rest => [] :: splitlinesList rest
  | '\n' :: rest => [] :: splitlinesList rest
  | '\r' :: rest => [] :: splitlinesList rest
  | c :: rest =>
    match splitlinesList rest with
    | [] => [[c]]
    | l :: ls => (c :: l) :: ls

/-- Embeds the row parsing of `csv.reader` for rows containing no quote
character (true of all inputs considered here): the fields are the
comma-separated pieces of the line. -/
def csvSplitRow : List Char → List (List Char)
  | [] => [[]]
  | ',' :: rest => [] :: csvSplitRow rest
  | c :: rest =>
    match csvSplitRow rest with
    | [] => [[c]]
    | l :: ls => (c :: l) :: ls

/-- Embeds `",".join(row)`. -/
def joinComma (row : List (List Char)) : List Char :=
  (row.intersperse [',']).flatten

/-- Embeds the page-emitting loop of `CsvParser.parse`: enumerate the rows
after the header, each becoming `Page(i, offset, ",".join(row))`, with
`offset` advanced by `len(page_text) + 1` for the newline. -/
def csvPagesLoop (i offset : Nat) : List (List (List Char)) → List Page
  | [] => []
  | row :: rows =>
    let pageText := joinComma row
    ⟨i, offset, pageText⟩ :: csvPagesLoop (i + 1) (offset + pageText.length + 1) rows

/-- The pages yielded for a decoded content string: split into lines, parse
each line as a CSV row, skip the header row (`next(reader, None)`), then emit
pages from offset 0. -/
def csvPagesOfString (contentStr : List Char) : List Page :=
  match (splitlinesList contentStr).map csvSplitRow with
  | [] => []
  | _header :: rows => csvPagesLoop 0 0 rows

/-- Embeds `CsvParser.parse`.  The local `content_str` is only assigned in
the `isinstance(content, (bytes, bytearray))` and `hasattr(content, "read")`
branches; on any other input its first use raises `UnboundLocalError`,
embedded as `Except.error ()`. -/
def csvParse (content : CsvContent) : Except Unit (List Page) :=
  let contentStr : Option (List Char) :=
    match content with
    | CsvContent.bytesInput data => some data
    | CsvContent.readerInput data => some data
    | _ => none
  match contentStr with
  | none => Except.error ()
  | some s => Except.ok (csvPagesOfString s)

/-! ## Specification-side definitions (for refinement comparisons) -/

/-- Specification reading of the page-attribution rule of `find_page`: the
last page whose offset is at most the given character offset. -/
def lastPageWithOffsetLE (pages : List Page) (offset : Nat) : Option Page :=
  (pages.filter fun p => p.offset ≤ offset).getLast?

/-! ## Theorems -/

/-- C9: `CsvParser.parse` on the byte content `"name,age\nJohn,30\nMary,25\n"`
yields exactly the two pages `Page(0, 0, "John,30")` and
`Page(1, 8, "Mary,25")`: the header row is skipped, each remaining row's
fields are rejoined with commas, and the offset accumulates each prior row's
text length plus one for the newline. -/
theorem csv_parse_example :
    csvParse (CsvContent.bytesInput
      ['n', 'a', 'm', 'e', ',', 'a', 'g', 'e', '\n',
       'J', 'o', 'h', 'n', ',', '3', '0', '\n',
       'M', 'a', 'r', 'y', ',', '2', '5', '\n']) =
    Except.ok
      [⟨0, 0, ['J', 'o', 'h', 'n', ',', '3', '0']⟩,
       ⟨1, 8, ['M', 'a', 'r', 'y', ',', '2', '5']⟩] := by
  rfl

/-- C10: for every input to `CsvParser.parse` that is neither
`bytes`/`bytearray` nor an object with a `read` method — in particular a
plain `str`, which the docstring claims is accepted — the parse raises
(`content_str` is never assigned before its first use) instead of yielding
any page. -/
theorem csv_parse_unassigned_content_str :
    (∀ data, csvParse (CsvContent.strInput data) = Except.error ()) ∧
      csvParse CsvContent.otherInput = Except.error () :=
  ⟨fun _ => rfl, rfl⟩

/-- C6 counterexample: the claim asserts that on the first pass `check_md5`
returns `False` "whether or not a fingerprint existed"; but when a stored
fingerprint exists and already equals the current content hash, the first
call returns `True` and the file is not yielded. -/
theorem check_md5_first_pass_counterexample :
    check_md5 false (some ['a', 'b']) ['a', 'b'] = (true, some ['a', 'b']) := by
  rfl

/-- C6 (amended): for a path not ending in `.md5`, if no stored fingerprint
equals the current content hash — in particular when the fingerprint is
absent, absence being treated as changed — the first `check_md5` call returns
`False` and stores the current hash (so `list()` yields the file), and with
content unchanged the second call finds the stored hash equal to the current
one and returns `True` (so `list()` skips the file). -/
theorem check_md5_twice (stored : Option (List Char)) (current : List Char)
    (h : stored ≠ some current) :
    check_md5 false stored current = (false, some current) ∧
      (check_md5 false (some current) current).1 = true := by
  constructor
  · cases stored with
    | none => rfl
    | some s =>
      simp only [check_md5, Bool.false_eq_true, if_false]
      rw [if_neg]
      intro hc
      exact h (by rw [hc])
  · simp [check_md5]

/-- C6 witness: instantiation at an absent fingerprint. -/
theorem check_md5_twice_witness :
    check_md5 false none ['a'] = (false, some ['a']) ∧
      (check_md5 false (some ['a']) ['a']).1 = true :=
  check_md5_twice none ['a'] (by simp)

/-- C7: `remove_content` returns without issuing any delete call when the
first query reports a total count of zero; more generally, the loop exits at
a query that returns zero matches, or that returns a count below the page
size while no returned document passed the `only_oid` filter. -/
theorem remove_content_terminates (onlyOid : Option (List Char))
    (queries : Nat → QueryResult) (fuel : Nat) :
    ((queries 0).count = 0 → remove_content onlyOid queries (fuel + 1) = some []) ∧
      (∀ k, (queries k).count = 0 ∨
          (((queries k).docs.filter (removeQualifies onlyOid)).isEmpty ∧
            (queries k).count < MAX_RESULTS) →
        removeContentLoop onlyOid queries k (fuel + 1) = some []) := by
  have hloop : ∀ k, (queries k).count = 0 ∨
      (((queries k).docs.filter (removeQualifies onlyOid)).isEmpty ∧
        (queries k).count < MAX_RESULTS) →
      removeContentLoop onlyOid queries k (fuel + 1) = some [] := by
    intro k hk
    rcases hk with h0 | ⟨hempty, hlt⟩
    · simp [removeContentLoop, h0]
    · by_cases h0 : (queries k).count = 0
      · simp [removeContentLoop, h0]
      · simp [removeContentLoop, h0, hempty, hlt]
  exact ⟨fun h0 => hloop 0 (Or.inl h0), hloop⟩

/-- C7 witness: a client whose first query reports zero matches. -/
theorem remove_content_terminates_witness :
    remove_content none (fun _ => ⟨0, []⟩) 1 = some [] :=
  (remove_content_terminates none (fun _ => ⟨0, []⟩) 0).1 rfl

/-- C8: in `FileStrategy.run` with `DocumentAction.Add`, the per-file
`try/finally` closes the file's stream on every exit path — parse producing
no sections, full success, or any step raising — and the close is the last
event of the file's processing, before any event of a later file: the trace
of `f :: fs` is `f`'s trace (ending in `closeEv`) followed by the trace of
the remaining files when the body succeeded, and `f`'s trace alone when the
escaping exception aborts the loop. -/
theorem run_add_closes_every_file (hasImg : Bool) (f : FileModel) (fs : List FileModel) :
    (processFile hasImg f).1.getLast? = some (Ev.closeEv f.fid) ∧
      (runAdd hasImg (f :: fs) = (processFile hasImg f).1 ++ runAdd hasImg fs ∨
        runAdd hasImg (f :: fs) = (processFile hasImg f).1) := by
  constructor
  · show (_ ++ [Ev.closeEv f.fid]).getLast? = _
    simp
  · rw [runAdd]
    by_cases h : (processFile hasImg f).2
    · left; rw [if_pos h]
    · right; rw [if_neg h]

/-! ### Token budget and termination of `split_page_by_max_tokens` -/

lemma findSplitPosition_bounds (text : List Char) (start boundary : Nat) :
    ∀ fuel pos q, findSplitPosition text start boundary pos fuel = some q →
      boundary + 1 ≤ q ∧ q + boundary + 1 ≤ 2 * start := by
  intro fuel
  induction fuel with
  | zero => intro pos q h; simp [findSplitPosition] at h
  | succ m ih =>
    intro pos q h
    rw [findSplitPosition] at h
    by_cases hc : boundary < start - pos
    · rw [if_pos hc] at h
      by_cases h1 : isSentenceEnding (charAt text (start - pos))
      · rw [if_pos h1] at h; injection h with h; omega
      · rw [if_neg h1] at h
        by_cases h2 : isSentenceEnding (charAt text (start + pos))
        · rw [if_pos h2] at h; injection h with h; omega
        · rw [if_neg h2] at h; exact ih _ _ h
    · rw [if_neg hc] at h; cases h

lemma splitHalves_length (text : List Char) (h3 : 3 ≤ text.length) :
    (splitHalves text).1.length < text.length ∧
      (splitHalves text).2.length < text.length := by
  simp only [splitHalves]
  cases hfs : findSplitPosition text (text.length / 2) (text.length / 3) 0
      (text.length / 2 + 1) with
  | some p =>
    have hb := findSplitPosition_bounds text _ _ _ _ _ hfs
    simp only [List.length_take, List.length_drop]
    omega
  | none =>
    simp only [List.length_take, List.length_drop]
    omega

/-- C5: the recursion of `split_page_by_max_tokens` terminates on every page
number and every text: fuel `text.length + 1` never runs out, because each
recursive call receives a strictly shorter string — in the sentence-ending
branch the split position `p` satisfies `1 ≤ p ≤ len - 2`, and in the
midpoint fallback the halves have lengths `len/2 + len/10` and
`len - len/2 + len/10`, both below `len` once `len ≥ 2`.  The hypothesis
`htok` states that strings of at most two characters fit the token budget;
the configured `tiktoken` encoder produces at most a few tokens for one or
two characters, far below the configured `max_tokens_per_section` of 500, so
the actual configuration satisfies it (without it, a single character
exceeding the budget recurses on an identical second half forever). -/
theorem split_page_by_max_tokens_terminates (tok : List Char → Nat) (maxTok : Nat)
    (htok : ∀ s : List Char, s.length ≤ 2 → tok s ≤ maxTok) :
    ∀ fuel pageNum text, text.length < fuel →
      (split_page_by_max_tokens tok maxTok fuel pageNum text).isSome := by
  intro fuel
  induction fuel with
  | zero => intro pageNum text h; exact absurd h (Nat.not_lt_zero _)
  | succ m ih =>
    intro pageNum text hlen
    rw [split_page_by_max_tokens]
    by_cases ht : tok text ≤ maxTok
    · rw [if_pos ht]; simp
    · rw [if_neg ht]
      have h3 : 3 ≤ text.length := by
        by_contra hc
        push_neg at hc
        exact ht (htok text (by omega))
      have hh := splitHalves_length text h3
      have h1 := ih pageNum (splitHalves text).1 (by omega)
      have h2 := ih pageNum (splitHalves text).2 (by omega)
      cases e1 : split_page_by_max_tokens tok maxTok m pageNum (splitHalves text).1 with
      | none => rw [e1] at h1; simp at h1
      | some a =>
        cases e2 : split_page_by_max_tokens tok maxTok m pageNum (splitHalves text).2 with
        | none => rw [e2] at h2; simp at h2
        | some b => simp

/-- C5 witness: with token count = character count and budget 2, the
four-character text is split to completion within fuel 5. -/
theorem split_page_by_max_tokens_terminates_witness :
    (split_page_by_max_tokens List.length 2 5 0 ['a', 'b', 'c', 'd']).isSome :=
  split_page_by_max_tokens_terminates List.length 2 (fun _ hs => hs) 5 0
    ['a', 'b', 'c', 'd'] (by decide)

lemma split_page_by_max_tokens_budget (tok : List Char → Nat) (maxTok : Nat) :
    ∀ fuel pageNum text res,
      split_page_by_max_tokens tok maxTok fuel pageNum text = some res →
      ∀ sp ∈ res, tok sp.text ≤ maxTok := by
  intro fuel
  induction fuel with
  | zero => intro pageNum text res h; simp [split_page_by_max_tokens] at h
  | succ m ih =>
    intro pageNum text res h sp hsp
    rw [split_page_by_max_tokens] at h
    by_cases ht : tok text ≤ maxTok
    · rw [if_pos ht] at h
      injection h with h
      subst h
      rw [List.mem_singleton] at hsp
      subst hsp
      exact ht
    · rw [if_neg ht] at h
      cases e1 : split_page_by_max_tokens tok maxTok m pageNum (splitHalves text).1 with
      | none => rw [e1] at h; cases h
      | some a =>
        rw [e1] at h
        cases e2 : split_page_by_max_tokens tok maxTok m pageNum (splitHalves text).2 with
        | none => rw [e2] at h; cases h
        | some b =>
          rw [e2] at h
          injection h with h
          subst h
          rcases List.mem_append.mp hsp with hm | hm
          · exact ih _ _ _ e1 sp hm
          · exact ih _ _ _ e2 sp hm

lemma chunksOfWindows_budget (tok : List Char → Nat) (maxTok : Nat)
    (pages : List Page) (allText : List Char) :
    ∀ ws res, chunksOfWindows tok maxTok pages allText ws = some res →
      ∀ sp ∈ res, tok sp.text ≤ maxTok := by
  intro ws
  induction ws with
  | nil =>
    intro res h sp hsp
    injection h with h
    subst h
    simp at hsp
  | cons w ws ih =>
    obtain ⟨s, e⟩ := w
    intro res h sp hsp
    rw [chunksOfWindows] at h
    cases e1 : split_page_by_max_tokens tok maxTok
        (((allText.drop s).take (e - s)).length + 1) (find_page pages s)
        ((allText.drop s).take (e - s)) with
    | none => rw [e1] at h; cases h
    | some a =>
      rw [e1] at h
      cases e2 : chunksOfWindows tok maxTok pages allText ws with
      | none => rw [e2] at h; cases h
      | some b =>
        rw [e2] at h
        injection h with h
        subst h
        rcases List.mem_append.mp hsp with hm | hm
        · exact split_page_by_max_tokens_budget tok maxTok _ _ _ _ e1 sp hm
        · exact ih _ e2 sp hm

/-- C1: every chunk yielded by `SentenceTextSplitter.split_pages` has a token
count (under the splitter's tokenizer `tok`) of at most
`max_tokens_per_section`, because `split_page_by_max_tokens` yields a chunk
directly only when its token count is within the budget and otherwise
recursively bisects. -/
theorem split_pages_token_budget (tok : List Char → Nat) (maxTok fuel : Nat)
    (pages : List Page) (res : List SplitPage)
    (h : split_pages tok maxTok fuel pages = some res) :
    ∀ sp ∈ res, tok sp.text ≤ maxTok := by
  simp only [split_pages] at h
  cases e : sectionWindows (concatText pages) fuel with
  | none => rw [e] at h; cases h
  | some ws =>
    rw [e] at h
    exact chunksOfWindows_budget tok maxTok pages (concatText pages) ws res h

/-- C1 witness: a concrete one-page run whose single chunk is within the
budget. -/
theorem split_pages_token_budget_witness :
    (⟨0, ['a', 'b', '.']⟩ : SplitPage).text.length ≤ 500 :=
  split_pages_token_budget List.length 500 3 [⟨0, 0, ['a', 'b', '.']⟩]
    [⟨0, ['a', 'b', '.']⟩] (by decide) ⟨0, ['a', 'b', '.']⟩ (by decide)

/-! ### Document ids of `update_content` -/

lemma natDecimal_ne_nil (n : Nat) : natDecimal n ≠ [] := by
  rw [natDecimal]
  by_cases h : n < 10 <;> simp [h]

lemma digit_char_inj (a b : Nat) (ha : a < 10) (hb : b < 10)
    (h : Char.ofNat (48 + a) = Char.ofNat (48 + b)) : a = b := by
  interval_cases a <;> interval_cases b <;> first | rfl | (exfalso; revert h; decide)

lemma natDecimal_inj : ∀ n m, natDecimal n = natDecimal m → n = m := by
  intro n
  induction n using Nat.strong_induction_on with
  | _ n ih =>
    intro m h
    by_cases hn : n < 10 <;> by_cases hm : m < 10
    · have hn' : natDecimal n = [Char.ofNat (48 + n)] := by
        rw [natDecimal, dif_pos hn]
      have hm' : natDecimal m = [Char.ofNat (48 + m)] := by
        rw [natDecimal, dif_pos hm]
      rw [hn', hm'] at h
      exact digit_char_inj n m hn hm (List.singleton_injective h)
    · have hn' : natDecimal n = [Char.ofNat (48 + n)] := by
        rw [natDecimal, dif_pos hn]
      have hm' : natDecimal m = natDecimal (m / 10) ++ [Char.ofNat (48 + m % 10)] := by
        rw [natDecimal, dif_neg hm]
      rw [hn', hm'] at h
      have h1 : natDecimal (m / 10) ≠ [] := natDecimal_ne_nil _
      have hlen := congrArg List.length h
      simp only [List.length_singleton, List.length_append] at hlen
      have h0 : (natDecimal (m / 10)).length = 0 := by omega
      exact absurd (List.eq_nil_of_length_eq_zero h0) h1
    · have hn' : natDecimal n = natDecimal (n / 10) ++ [Char.ofNat (48 + n % 10)] := by
        rw [natDecimal, dif_neg hn]
      have hm' : natDecimal m = [Char.ofNat (48 + m)] := by
        rw [natDecimal, dif_pos hm]
      rw [hn', hm'] at h
      have h1 : natDecimal (n / 10) ≠ [] := natDecimal_ne_nil _
      have hlen := congrArg List.length h
      simp only [List.length_singleton, List.length_append] at hlen
      have h0 : (natDecimal (n / 10)).length = 0 := by omega
      exact absurd (List.eq_nil_of_length_eq_zero h0) h1
    · have hn' : natDecimal n = natDecimal (n / 10) ++ [Char.ofNat (48 + n % 10)] := by
        rw [natDecimal, dif_neg hn]
      have hm' : natDecimal m = natDecimal (m / 10) ++ [Char.ofNat (48 + m % 10)] := by
        rw [natDecimal, dif_neg hm]
      rw [hn', hm'] at h
      obtain ⟨hpre, hdig⟩ := List.append_inj' h (by rfl)
      have hq : n / 10 = m / 10 :=
        ih (n / 10) (by omega) (m / 10) hpre
      have hr : n % 10 = m % 10 :=
        digit_char_inj _ _ (Nat.mod_lt _ (by omega)) (Nat.mod_lt _ (by omega))
          (List.singleton_injective hdig)
      omega

lemma documentId_inj (fileId : List Char) : Function.Injective (documentId fileId) := by
  intro a b h
  unfold documentId at h
  exact natDecimal_inj a b (List.append_cancel_left h)

lemma enum_map_fst_comp {α β : Type} (l : List α) (f : Nat → β) :
    l.enum.map (fun q => f q.1) = (List.range l.length).map f := by
  have : (fun q : Nat × α => f q.1) = f ∘ Prod.fst := rfl
  rw [this, ← List.map_map, List.enum_map_fst]

lemma sectionBatches_flat_ids {α : Type} (fileId : List Char) :
    ∀ (xs : List α) (b : Nat),
      ((sectionBatches xs).enumFrom b).flatMap
          (fun bi => bi.2.enum.map fun si =>
            documentId fileId (si.1 + bi.1 * MAX_BATCH_SIZE)) =
        (List.range xs.length).map fun i =>
          documentId fileId (i + b * MAX_BATCH_SIZE) := by
  intro xs
  induction xs using sectionBatches.induct with
  | case1 xs hempty =>
    intro b
    rw [sectionBatches, if_pos hempty]
    rw [List.isEmpty_iff.mp hempty]
    simp
  | case2 xs hempty ih =>
    intro b
    rw [sectionBatches, if_neg hempty]
    rw [List.enumFrom_cons, List.flatMap_cons, ih (b + 1)]
    dsimp only
    have hhead : List.map
        (fun si : Nat × α => documentId fileId (si.1 + b * MAX_BATCH_SIZE))
        (List.take MAX_BATCH_SIZE xs).enum =
        List.map (fun i => documentId fileId (i + b * MAX_BATCH_SIZE))
          (List.range (List.take MAX_BATCH_SIZE xs).length) :=
      enum_map_fst_comp (List.take MAX_BATCH_SIZE xs)
        (fun i => documentId fileId (i + b * MAX_BATCH_SIZE))
    rw [hhead]
    have hsplit : xs.length = min MAX_BATCH_SIZE xs.length + (xs.length - MAX_BATCH_SIZE) := by
      omega
    rw [List.length_take, List.length_drop]
    conv_rhs => rw [hsplit]
    rw [List.range_add, List.map_append, List.map_map]
    refine congrArg₂ (· ++ ·) rfl ?_
    apply List.map_congr_left
    intro a ha
    have halt := List.mem_range.mp ha
    simp only [Function.comp_apply]
    congr 1
    simp only [MAX_BATCH_SIZE] at *
    omega

/-- C3: in `SearchManager.update_content`, the section at overall position
`i` of the call (with `i = section_index + batch_index * MAX_BATCH_SIZE`
under the 1000-section batching) is assigned the id
`filename_to_id() + "-page-" + str(i)`; consequently the ids of one call are
pairwise distinct, and a second call with the same file and the same number
and order of sections assigns exactly the same ids (the ids are a function of
the file id and the section count alone). -/
theorem update_content_ids_characterization {α : Type} (fileId : List Char)
    (sections : List α) :
    updateContentIds fileId sections =
        (List.range sections.length).map (documentId fileId) ∧
      (updateContentIds fileId sections).Nodup := by
  have hchar : updateContentIds fileId sections =
      (List.range sections.length).map (documentId fileId) := by
    unfold updateContentIds
    have henum : (sectionBatches sections).enum =
        (sectionBatches sections).enumFrom 0 := rfl
    rw [henum, sectionBatches_flat_ids]
    apply List.map_congr_left
    intro a _
    simp
  refine ⟨hchar, ?_⟩
  rw [hchar]
  exact (List.nodup_range _).map (documentId_inj fileId)

/-! ### Page attribution: `find_page` -/

lemma find_page_eq_last_le (o : Nat) :
    ∀ pages : List Page,
      List.Pairwise (fun a b : Page => a.offset < b.offset) pages →
      (∀ p0, pages.head? = some p0 → p0.offset ≤ o) →
      pages ≠ [] →
      ∃ p, lastPageWithOffsetLE pages o = some p ∧ find_page pages o = p.page_num := by
  intro pages
  induction pages, o using find_page.induct with
  | case1 o => intro _ _ hne; exact absurd rfl hne
  | case2 p o =>
    intro _ hhead _
    have hp : p.offset ≤ o := hhead p rfl
    refine ⟨p, ?_, rfl⟩
    unfold lastPageWithOffsetLE
    rw [List.filter_cons]
    simp [hp]
  | case3 p q ps o hcond =>
    intro hpair hhead _
    have hp : p.offset ≤ o := hcond.1
    have hqo : o < q.offset := hcond.2
    rw [find_page, if_pos hcond]
    refine ⟨p, ?_, rfl⟩
    unfold lastPageWithOffsetLE
    have hrest : (q :: ps).filter (fun r => decide (r.offset ≤ o)) = [] := by
      rw [List.filter_eq_nil_iff]
      intro r hr
      rcases List.mem_cons.mp hr with rfl | hr
      · simp; omega
      · have hqr : q.offset < r.offset :=
          (List.pairwise_cons.mp (List.pairwise_cons.mp hpair).2).1 r hr
        simp
        omega
    rw [List.filter_cons_of_pos (by simpa using hp), hrest]
    rfl
  | case4 p q ps o hcond ih =>
    intro hpair hhead _
    have hp : p.offset ≤ o := hhead p rfl
    have hqo : q.offset ≤ o := by
      rcases Decidable.em (o < q.offset) with h | h
      · exact absurd ⟨hp, h⟩ hcond
      · omega
    rw [find_page, if_neg hcond]
    obtain ⟨p', hlast, hfp⟩ := ih (List.pairwise_cons.mp hpair).2
      (by intro p0 h0; injection h0 with h0; rw [← h0]; exact hqo) (by simp)
    refine ⟨p', ?_, hfp⟩
    unfold lastPageWithOffsetLE at hlast ⊢
    cases hfil : (q :: ps).filter (fun r => decide (r.offset ≤ o)) with
    | nil => rw [hfil] at hlast; cases hlast
    | cons x xs =>
      rw [hfil] at hlast
      rw [List.filter_cons_of_pos (by simpa using hp), hfil, List.getLast?_cons_cons]
      exact hlast

/-- C4: for a non-empty page list whose offsets start at 0 and strictly
increase, and any character offset `o` below the end of the concatenated
text, the `find_page` helper of `split_pages` returns the page number of the
last page whose offset is at most `o` — so every emitted chunk is attributed
to the page containing its starting character (a chunk straddling a page
boundary is attributed to the earlier page). -/
theorem find_page_attributes_last_page (pages : List Page) (o : Nat)
    (hne : pages ≠ [])
    (hfirst : ∀ p0, pages.head? = some p0 → p0.offset = 0)
    (hinc : List.Pairwise (fun a b : Page => a.offset < b.offset) pages)
    (_hlast : ∀ pl, pages.getLast? = some pl → o < pl.offset + pl.text.length) :
    ∃ p, lastPageWithOffsetLE pages o = some p ∧ find_page pages o = p.page_num :=
  find_page_eq_last_le o pages hinc
    (fun p0 h0 => by rw [hfirst p0 h0]; exact Nat.zero_le o) hne

/-- C4 witness: offset 1 lies on the second page of a two-page list. -/
theorem find_page_attributes_last_page_witness :
    ∃ p, lastPageWithOffsetLE [⟨0, 0, ['a']⟩, ⟨1, 1, ['b']⟩] 1 = some p ∧
      find_page [⟨0, 0, ['a']⟩, ⟨1, 1, ['b']⟩] 1 = p.page_num :=
  find_page_attributes_last_page [⟨0, 0, ['a']⟩, ⟨1, 1, ['b']⟩] 1
    (by simp)
    (by intro p0 h0; injection h0 with h0; rw [← h0])
    (by decide)
    (by intro pl hl; injection hl with hl; rw [← hl]; decide)

/-! ### Window coverage of `split_pages` -/

lemma forwardScan_bounds (text : List Char) (n start : Nat) :
    ∀ endPos lastWord,
      endPos ≤ (forwardScan text n start endPos lastWord).1 ∧
        ((forwardScan text n start endPos lastWord).2 = lastWord ∨
          (endPos : Int) ≤ (forwardScan text n start endPos lastWord).2) := by
  intro endPos lastWord
  induction endPos, lastWord using forwardScan.induct text n start with
  | case1 endPos lastWord hc ih =>
    rw [forwardScan, dif_pos hc]
    by_cases hw : isWordBreak (charAt text endPos)
    · rw [dif_pos hw] at ih
      rw [if_pos hw]
      refine ⟨by have := ih.1; omega, ?_⟩
      rcases ih.2 with h | h
      · right; rw [h]
      · right; omega
    · rw [dif_neg hw] at ih
      rw [if_neg hw]
      refine ⟨by have := ih.1; omega, ?_⟩
      rcases ih.2 with h | h
      · left; exact h
      · right; omega
  | case2 endPos lastWord hc =>
    rw [forwardScan, dif_neg hc]
    exact ⟨Nat.le_refl _, Or.inl rfl⟩

lemma backwardScan_bounds (text : List Char) (endPos : Nat) :
    ∀ startPos lastWord,
      (backwardScan text endPos startPos lastWord).1 ≤ startPos ∧
        ((backwardScan text endPos startPos lastWord).2 = lastWord ∨
          (backwardScan text endPos startPos lastWord).2 ≤ (startPos : Int)) := by
  intro startPos lastWord
  induction startPos, lastWord using backwardScan.induct text endPos with
  | case1 startPos lastWord hc ih =>
    rw [backwardScan, dif_pos hc]
    by_cases hw : isWordBreak (charAt text startPos)
    · rw [dif_pos hw] at ih
      rw [if_pos hw]
      refine ⟨by have := ih.1; omega, ?_⟩
      rcases ih.2 with h | h
      · right; rw [h]
      · right; omega
    · rw [dif_neg hw] at ih
      rw [if_neg hw]
      refine ⟨by have := ih.1; omega, ?_⟩
      rcases ih.2 with h | h
      · left; exact h
      · right; omega
  | case2 startPos lastWord hc =>
    rw [backwardScan, dif_neg hc]
    exact ⟨Nat.le_refl _, Or.inl rfl⟩

lemma splitIteration_bounds (text : List Char) (n start : Nat)
    (hn : MAX_SECTION_LENGTH < n) :
    (splitIteration text n start).1.1 ≤ start + 1 ∧
      (start = 0 → (splitIteration text n start).1.1 = 0) ∧
      min (start + MAX_SECTION_LENGTH) n ≤ (splitIteration text n start).1.2 ∧
      (splitIteration text n start).2 + SECTION_OVERLAP ≤ (splitIteration text n start).1.2 := by
  have hfwd := forwardScan_bounds text n start (min (start + MAX_SECTION_LENGTH) n) (-1)
  simp only [splitIteration]
  set F := forwardScan text n start (min (start + MAX_SECTION_LENGTH) n) (-1) with hF
  set e1 := F.1 with he1
  have hend2 :
      min (start + MAX_SECTION_LENGTH) n ≤
        (if e1 < n ∧ ¬ isSentenceEnding (charAt text e1) = true ∧ 0 < F.2 then
          F.2.toNat else e1) := by
    split_ifs with hc
    · rcases hfwd.2 with h | h
      · omega
      · omega
    · exact hfwd.1
  set e2 := (if e1 < n ∧ ¬ isSentenceEnding (charAt text e1) = true ∧ 0 < F.2 then
    F.2.toNat else e1) with he2
  set e3 := (if e2 < n then e2 + 1 else e2) with he3
  have hend3 : min (start + MAX_SECTION_LENGTH) n ≤ e3 := by
    rw [he3]; split_ifs <;> omega
  have hbwd := backwardScan_bounds text e3 start (-1)
  set B := backwardScan text e3 start (-1) with hB
  set s1 := B.1 with hs1
  have hstart2 :
      (if ¬ isSentenceEnding (charAt text s1) = true ∧ 0 < B.2 then B.2.toNat else s1)
        ≤ start := by
    split_ifs with hc
    · rcases hbwd.2 with h | h
      · omega
      · omega
    · exact hbwd.1
  set s2 := (if ¬ isSentenceEnding (charAt text s1) = true ∧ 0 < B.2 then
    B.2.toNat else s1) with hs2
  set s3 := (if 0 < s2 then s2 + 1 else s2) with hs3
  have hstart3 : s3 ≤ start + 1 := by
    rw [hs3]; split_ifs <;> omega
  have hzero : start = 0 → s3 = 0 := by
    intro h0
    subst h0
    have hB0 : B = (0, -1) := by
      rw [hB]
      have hsc : ¬ (0 < (0 : Nat) ∧
          e3 - MAX_SECTION_LENGTH - 2 * SENTENCE_SEARCH_LIMIT < 0 ∧
          ¬ isSentenceEnding (charAt text 0) = true) := by
        intro hcc
        exact absurd hcc.1 (by omega)
      rw [backwardScan, dif_neg hsc]
    have hs10 : s1 = 0 := by rw [hs1, hB0]
    have hs20 : s2 = 0 := by
      rw [hs2, hs10, hB0]
      simp
    rw [hs3, hs20]
    simp
  refine ⟨hstart3, hzero, hend3, ?_⟩
  have h1000 : MAX_SECTION_LENGTH ≤ e3 := by
    simp only [MAX_SECTION_LENGTH] at *
    omega
  split_ifs with hc
  · simp only [SECTION_OVERLAP, MAX_SECTION_LENGTH, SENTENCE_SEARCH_LIMIT] at *
    omega
  · simp only [SECTION_OVERLAP, MAX_SECTION_LENGTH, SENTENCE_SEARCH_LIMIT] at *
    omega

lemma splitLoop_covers (text : List Char) (n : Nat) (hn : MAX_SECTION_LENGTH < n) :
    ∀ fuel start endPrev ws fStart fEnd,
      splitLoop text n fuel start endPrev = some (ws, fStart, fEnd) →
      ∀ C, (start = 0 ∧ C = 0 ∨ start + SECTION_OVERLAP ≤ C) →
      ∀ i, C ≤ i → i < n → ∃ w ∈ ws, w.1 ≤ i ∧ i < w.2 := by
  intro fuel
  induction fuel with
  | zero => intro start endPrev ws fStart fEnd h; cases h
  | succ m ih =>
    intro start endPrev ws fStart fEnd h C hinv i hCi hin
    rw [splitLoop] at h
    by_cases hc : start + SECTION_OVERLAP < n
    · rw [if_pos hc] at h
      dsimp only at h
      obtain ⟨hs3, hzero, hend, hnext⟩ := splitIteration_bounds text n start hn
      cases hrec : splitLoop text n m (splitIteration text n start).2
          (splitIteration text n start).1.2 with
      | none => rw [hrec] at h; cases h
      | some r =>
        obtain ⟨ws', fStart', fEnd'⟩ := r
        rw [hrec] at h
        injection h with h
        injection h with hws hrest
        have hs3C : (splitIteration text n start).1.1 ≤ C := by
          rcases hinv with ⟨h0, hC0⟩ | hge
          · rw [hC0, hzero h0]
          · simp only [SECTION_OVERLAP] at hge
            omega
        by_cases hi : i < (splitIteration text n start).1.2
        · refine ⟨(splitIteration text n start).1, ?_, by omega, hi⟩
          rw [← hws]
          exact List.mem_cons_self _ _
        · push_neg at hi
          obtain ⟨w, hw, hwi⟩ := ih (splitIteration text n start).2
            (splitIteration text n start).1.2 ws' fStart' fEnd' hrec
            (splitIteration text n start).1.2 (Or.inr hnext) i hi hin
          refine ⟨w, ?_, hwi⟩
          rw [← hws]
          exact List.mem_cons_of_mem _ hw
    · rw [if_neg hc] at h
      injection h with h
      injection h with hws hrest
      exfalso
      rcases hinv with ⟨h0, hC0⟩ | hge
      · simp only [SECTION_OVERLAP, MAX_SECTION_LENGTH] at *
        omega
      · simp only [SECTION_OVERLAP, MAX_SECTION_LENGTH] at *
        omega

/-- C2: when the concatenated page text is non-blank, every character
position of it lies inside at least one window `[start, end)` emitted by
`split_pages` (consecutive windows overlap but leave no gap): the first
window starts at 0, each iteration's next start is at most
`end - section_overlap` (the unclosed-table adjustment only moves it further
back via `min`), the backward start adjustment moves a window's start at most
one past the loop variable, and the loop exits only once `end` has reached
the end of the text. -/
theorem split_pages_windows_cover (pages : List Page) (fuel : Nat)
    (ws : List (Nat × Nat))
    (hnb : isBlankText (concatText pages) = false)
    (h : sectionWindows (concatText pages) fuel = some ws) :
    ∀ i < (concatText pages).length, ∃ w ∈ ws, w.1 ≤ i ∧ i < w.2 := by
  intro i hi
  simp only [sectionWindows] at h
  rw [hnb] at h
  simp only [Bool.false_eq_true, if_false] at h
  by_cases hsmall : (concatText pages).length ≤ MAX_SECTION_LENGTH
  · rw [if_pos hsmall] at h
    injection h with h
    rw [← h]
    exact ⟨(0, (concatText pages).length), List.mem_singleton_self _,
      Nat.zero_le i, hi⟩
  · rw [if_neg hsmall] at h
    cases hrec : splitLoop (concatText pages) (concatText pages).length fuel 0 0 with
    | none => rw [hrec] at h; cases h
    | some r =>
      obtain ⟨ws', fStart, fEnd⟩ := r
      rw [hrec] at h
      dsimp only at h
      have hcov := splitLoop_covers (concatText pages) (concatText pages).length
        (by omega) fuel 0 0 ws' fStart fEnd hrec 0 (Or.inl ⟨rfl, rfl⟩) i
        (Nat.zero_le i) hi
      by_cases hfin : fStart + SECTION_OVERLAP < fEnd
      · rw [if_pos hfin] at h
        injection h with h
        rw [← h]
        obtain ⟨w, hw, hwi⟩ := hcov
        exact ⟨w, List.mem_append_left _ hw, hwi⟩
      · rw [if_neg hfin] at h
        injection h with h
        rw [← h]
        exact hcov

/-- C2 witness: a two-character non-blank page list produces the single
window `[0, 2)`, which contains position 1. -/
theorem split_pages_windows_cover_witness :
    ∃ w ∈ [((0 : Nat), (2 : Nat))], w.1 ≤ 1 ∧ 1 < w.2 :=
  split_pages_windows_cover [⟨0, 0, ['a', 'b']⟩] 1 [(0, 2)] (by decide)
    (by decide) 1 (by decide)

end PrepDocs
